import Mathlib

/-!
Verification of the beat-synchronized motion scheduler (go1pylib beat_routine).

The Python sources are shallowly embedded: real-valued quantities (times,
speeds, turn balances, BPM values) are modelled by `ℚ`, list-valued state by
`List`, and the module-level configuration constants by Lean definitions of
the same value.  External library calls (librosa onset/beat analysis, the
MQTT robot link, the audio device) are not part of the repository; their
results enter the embedded functions as explicit inputs.
-/

namespace BeatRoutine

/-! ## Section partition (custom_example.py, main, lines 305-313) -/

/-- The 4-way proportional section split of `custom_example.main`:
`section_size = total_beats // 4`, warmup/verse/chorus each take
`section_size` beats (clamped by `min` to `total_beats`), and the finale
extends to `total_beats`. -/
def sectionRanges (totalBeats : Nat) : List (Nat × Nat) :=
  let sectionSize := totalBeats / 4
  let warmupEnd := min sectionSize totalBeats
  let verseEnd := min (warmupEnd + sectionSize) totalBeats
  let chorusEnd := min (verseEnd + sectionSize) totalBeats
  [(0, warmupEnd), (warmupEnd, verseEnd), (verseEnd, chorusEnd), (chorusEnd, totalBeats)]

/-! ## build_sequence (custom_example.py, lines 173-186) -/

/-- `pattern` concatenated with itself `m` times (the shape that the
`build_sequence` while-loop accumulates). -/
def repFlat (pattern : List α) : Nat → List α
  | 0 => []
  | m + 1 => pattern ++ repFlat pattern m

/-- The `while len(sequence) < count: sequence.extend(pattern)` loop of
`build_sequence`, with explicit fuel.  One unit of fuel per iteration; the
loop exits as soon as the guard fails. -/
def buildLoop (pattern : List α) : Nat → List α → Nat → List α
  | 0, seq, _ => seq
  | fuel + 1, seq, count =>
      if seq.length < count then buildLoop pattern fuel (seq ++ pattern) count
      else seq

/-- `build_sequence(pattern, count)`: repeat the pattern until at least
`count` entries exist, then truncate to `count`.  `count` units of fuel
suffice because every iteration of a non-empty pattern adds at least one
element. -/
def build_sequence (pattern : List α) (count : Nat) : List α :=
  (buildLoop pattern count [] count).take count

/-! ## Dance moves and turn balance (dance_moves.py) -/

/-- A turn command issued to the robot: turning speed and duration in
milliseconds. -/
inductive TurnCmd where
  | left (speed durationMs : ℚ)
  | right (speed durationMs : ℚ)
deriving DecidableEq

/-- `balance_turn` (dance_moves.py lines 228-249): corrective turn for the
accumulated balance.  Returns the issued command (if any) and the new
balance.  In dry-run mode the code sleeps instead of issuing a turn command
but still zeroes the balance. -/
def balance_turn (dryRun : Bool) (balance balanceSpeed : ℚ) : Option TurnCmd × ℚ :=
  if balanceSpeed ≤ 0 then (none, balance)
  else if |balance| ≤ 1 / 1000000 then (none, balance)
  else
    let duration_s := |balance| / balanceSpeed
    if duration_s ≤ 0 then (none, balance)
    else if dryRun then (none, 0)
    else if 0 < balance then (some (.left balanceSpeed (duration_s * 1000)), 0)
    else (some (.right balanceSpeed (duration_s * 1000)), 0)

/-- A `DanceStep` (dance_moves.py lines 6-10): name and signed turn rate
(the `runner` closure only forwards the computed duration to the robot, so
the observable effect of a step is its name paired with that duration). -/
structure DanceStep where
  name : String
  turnRate : ℚ
deriving DecidableEq

/-- `DanceMove.run` (dance_moves.py lines 24-37): no-op when
`duration_s <= 0` or the move has no steps; otherwise runs every step for
`step_duration_ms = duration_s * 1000 / len(steps)` and accumulates
`turn_rate * step_duration_s` into the balance for steps with a non-zero
turn rate.  Returns the list of `(step name, duration_ms)` commands and the
updated balance (modelling the `turn_state is not None` case). -/
def runMove (steps : List DanceStep) (duration_s : ℚ) (balance : ℚ) :
    List (String × ℚ) × ℚ :=
  if duration_s ≤ 0 ∨ steps = [] then ([], balance)
  else
    let stepDurationMs := duration_s * 1000 / (steps.length : ℚ)
    let stepDurationS := stepDurationMs / 1000
    steps.foldl
      (fun acc step =>
        (acc.1 ++ [(step.name, stepDurationMs)],
         if step.turnRate ≠ 0 then acc.2 + step.turnRate * stepDurationS
         else acc.2))
      ([], balance)

/-! ## BPM octave folding (realtime_bob.py, get_bpm, lines 116-136) -/

/-- The `while bpm < 80: bpm *= 2` loop of `get_bpm`, with explicit fuel.
One unit of fuel per iteration; the loop exits as soon as the guard fails. -/
def doubleLoop : Nat → ℚ → ℚ
  | 0, bpm => bpm
  | n + 1, bpm => if bpm < 80 then doubleLoop n (bpm * 2) else bpm

/-- The `while bpm > 200: bpm /= 2` loop of `get_bpm`, with explicit fuel. -/
def halveLoop : Nat → ℚ → ℚ
  | 0, bpm => bpm
  | n + 1, bpm => if 200 < bpm then halveLoop n (bpm / 2) else bpm

/-- Fuel sufficient for the doubling loop on a positive input: for
`bpm = p/q` with `p ≥ 1`, `bpm · 2^(80·q) ≥ 2^(80·q)/q ≥ 80`. -/
def doubleFuel (bpm : ℚ) : Nat := 80 * bpm.den

/-- Fuel sufficient for the halving loop: `b ≤ b.num < 2^b.num`. -/
def halveFuel (bpm : ℚ) : Nat := bpm.num.toNat

/-- The octave-folding normalization of `get_bpm`: double while below 80,
then halve while above 200.  The fuel values are provably sufficient for
positive inputs; for `bpm ≤ 0` the first `while` loop of the source never
exits (`normalize_diverges_at_zero`). -/
def normalize (bpm : ℚ) : ℚ :=
  let b := doubleLoop (doubleFuel bpm) bpm
  halveLoop (halveFuel b) b

/-! ## Real-time beat detector (realtime_bob.py, RealtimeBeatDetector) -/

/-- `BUFFER_DURATION = 5` seconds of audio analyzed for beat detection. -/
def BUFFER_DURATION : ℚ := 5

/-- `CHUNK_DURATION = 0.1` seconds per processed chunk. -/
def CHUNK_DURATION : ℚ := 1 / 10

/-- `MIN_BEAT_INTERVAL = 0`: the source's minimum seconds between beats. -/
def MIN_BEAT_INTERVAL : ℚ := 0

/-- `START_BPM = 120`: initial tempo guess. -/
def START_BPM : ℚ := 120

/-- `self.prediction_tolerance = 0.15` seconds. -/
def PREDICTION_TOLERANCE : ℚ := 15 / 100

/-- Phase-tracking state of `RealtimeBeatDetector`.  The cached onset
envelope `self.onset_env` is the output of an external librosa call on the
buffer and is not carried in the embedded state. -/
structure DetectorState where
  audioBuffer : List ℚ
  lastBeatTime : ℚ
  beatTimes : List ℚ
  beatPeriod : ℚ
  nextPredictedBeat : Option ℚ
deriving DecidableEq

/-- `RealtimeBeatDetector.__init__` (lines 39-49), parameterized by the
initial buffer contents (zeros of length `buffer_size` in the source). -/
def initState (buf : List ℚ) : DetectorState :=
  { audioBuffer := buf
    lastBeatTime := 0
    beatTimes := []
    beatPeriod := 60 / START_BPM
    nextPredictedBeat := none }

/-- Consecutive differences `beat_times[i] - beat_times[i-1]` (lines
103-105). -/
def intervalsOf : List ℚ → List ℚ
  | a :: b :: rest => (b - a) :: intervalsOf (b :: rest)
  | _ => []

/-- `np.mean` over a list of rationals. -/
def mean (xs : List ℚ) : ℚ := xs.sum / (xs.length : ℚ)

/-- The *predicted* candidate of `process_chunk` (lines 59-66): a predicted
beat is due when `next_predicted_beat` is set and `now` lies within
`prediction_tolerance` of it. -/
def predictedCandidate (s : DetectorState) (now : ℚ) : Bool :=
  match s.nextPredictedBeat with
  | some t => decide (|t - now| < PREDICTION_TOLERANCE)
  | none => false

/-- The *detected* (onset) candidate of `process_chunk` (lines 74-93): the
onset times librosa detects in the buffer (an input here, the onset
detector being an external library) are filtered to the trailing two chunk
durations, and the candidate additionally requires strictly more than
`minInterval` seconds since the last fired beat. -/
def onsetCandidate (minInterval : ℚ) (s : DetectorState) (now : ℚ)
    (onsetTimes : List ℚ) : Bool :=
  let recent := onsetTimes.filter
    (fun t => decide (BUFFER_DURATION - CHUNK_DURATION * 2 < t))
  !recent.isEmpty && decide (minInterval < now - s.lastBeatTime)

/-- `process_chunk` (lines 51-114), parameterized by the min-interval
configuration constant (`MIN_BEAT_INTERVAL = 0` in the source): roll the
buffer, evaluate both beat candidates, and on a fire append `now` to the
beat history (bounded to the last 8), recompute the beat period as the
mean inter-beat interval when at least 2 beats are recorded, predict the
next beat, and report the kind — "predicted" only when the prediction
fired alone.  Returns `((fired, kind), new state)`. -/
def process_chunk (minInterval : ℚ) (s : DetectorState) (chunk : List ℚ)
    (now : ℚ) (onsetTimes : List ℚ) : (Bool × Option String) × DetectorState :=
  let buf := s.audioBuffer.drop chunk.length ++ chunk
  let predictedBeat := predictedCandidate s now
  let onsetBeat := onsetCandidate minInterval s now onsetTimes
  if onsetBeat || predictedBeat then
    let bt0 := s.beatTimes ++ [now]
    let bt := if 8 < bt0.length then bt0.drop (bt0.length - 8) else bt0
    let period := if 2 ≤ bt.length then mean (intervalsOf bt) else s.beatPeriod
    let kind := if predictedBeat && !onsetBeat then "predicted" else "detected"
    ((true, some kind),
     { audioBuffer := buf
       lastBeatTime := now
       beatTimes := bt
       beatPeriod := period
       nextPredictedBeat := some (now + period) })
  else
    ((false, none), { s with audioBuffer := buf })

/-! ## Beat range to time range (custom_example.py,
`BeatModeMapper.get_beat_time_range`, lines 120-145) -/

/-- Python list indexing on a rational list: non-negative indices read
from the front, negative indices read from the back (`xs[-1]` is the last
element).  Out-of-range reads raise in Python; every read reachable below
is in range for a non-empty timeline, so a default of 0 stands in. -/
def pyGet (xs : List ℚ) (i : Int) : ℚ :=
  if 0 ≤ i then xs.getD i.toNat 0
  else xs.getD (xs.length - (-i).toNat) 0

/-- `get_beat_time_range(start_beat, end_beat)`: raises `ValueError` for
negative indices; clamps a start index at or beyond the timeline length to
the last index and an end index beyond the length to the length, logging
each clamp as a warning; then reads `beat_times[start_beat]` and
`beat_times[end_beat - 1]` (each with the source's defensive fallback to
`beat_times[-1]`).  The logged warnings are returned alongside the time
pair as the recorded anomalies. -/
def get_beat_time_range (beatTimes : List ℚ) (startBeat endBeat : Int) :
    Except String ((ℚ × ℚ) × List String) :=
  if startBeat < 0 ∨ endBeat < 0 then
    .error "Beat indices cannot be negative"
  else
    let n : Int := beatTimes.length
    let startClamped := if startBeat ≥ n then n - 1 else startBeat
    let warnStart : List String :=
      if startBeat ≥ n then ["start beat exceeds available beats"] else []
    let endClamped := if endBeat > n then n else endBeat
    let warnEnd : List String :=
      if endBeat > n then ["end beat exceeds available beats"] else []
    let startTime :=
      if startClamped < n then pyGet beatTimes startClamped
      else pyGet beatTimes (-1)
    let endTime :=
      if endClamped - 1 < n then pyGet beatTimes (endClamped - 1)
      else pyGet beatTimes (-1)
    .ok ((startTime, endTime), warnStart ++ warnEnd)

/-! ## Beat-driven dispatch loop (dance_routine.py, main, lines 74-94) -/

/-- The dispatch loop of `dance_routine.main`: iterate over the beat
indices in order, `continue` past beats whose index is not a multiple of
`BEATS_PER_MOVE`, and on every remaining beat dispatch
`MOVE_SEQUENCE[move_index % len(MOVE_SEQUENCE)]` and increment
`move_index`.  Returns the `(beat index, move name)` dispatches. -/
def dispatchLoop (seq : List String) (stride : Nat) :
    List Nat → Nat → List (Nat × String)
  | [], _ => []
  | i :: rest, moveIndex =>
      if i % stride ≠ 0 then dispatchLoop seq stride rest moveIndex
      else (i, seq.getD (moveIndex % seq.length) "") ::
        dispatchLoop seq stride rest (moveIndex + 1)

/-- The whole loop over `enumerate(beat_times)` with `move_index = 0`:
only the beat indices matter for which move is dispatched on which beat. -/
def dispatchSchedule (numBeats stride : Nat) (seq : List String) :
    List (Nat × String) :=
  dispatchLoop seq stride (List.range numBeats) 0

theorem buildLoop_eq_append_repFlat (pattern : List α) :
    ∀ fuel seq count, ∃ m, buildLoop pattern fuel seq count = seq ++ repFlat pattern m := by
  intro fuel
  induction fuel with
  | zero => intro seq count; exact ⟨0, by simp [buildLoop, repFlat]⟩
  | succ n ih =>
      intro seq count
      by_cases h : seq.length < count
      · obtain ⟨m, hm⟩ := ih (seq ++ pattern) count
        exact ⟨m + 1, by simp [buildLoop, h, hm, repFlat]⟩
      · exact ⟨0, by simp [buildLoop, h, repFlat]⟩

theorem buildLoop_length (pattern : List α) (hp : pattern ≠ []) :
    ∀ fuel seq count, count ≤ seq.length + fuel →
      count ≤ (buildLoop pattern fuel seq count).length := by
  intro fuel
  induction fuel with
  | zero => intro seq count h; simpa [buildLoop] using h
  | succ n ih =>
      intro seq count h
      by_cases hlt : seq.length < count
      · rw [buildLoop, if_pos hlt]
        apply ih
        have : 1 ≤ pattern.length := List.length_pos.mpr hp
        simp only [List.length_append]
        omega
      · rw [buildLoop, if_neg hlt]
        omega

theorem repFlat_length (pattern : List α) :
    ∀ m, (repFlat pattern m).length = m * pattern.length := by
  intro m
  induction m with
  | zero => simp [repFlat]
  | succ n ih => simp [repFlat, ih, Nat.succ_mul]; ring

theorem repFlat_getElem? (pattern : List α) :
    ∀ m i, i < m * pattern.length →
      (repFlat pattern m)[i]? = pattern[i % pattern.length]? := by
  intro m
  induction m with
  | zero => intro i hi; omega
  | succ n ih =>
      intro i hi
      rw [Nat.succ_mul] at hi
      by_cases h : i < pattern.length
      · rw [repFlat, List.getElem?_append, if_pos h, Nat.mod_eq_of_lt h]
      · push_neg at h
        have h1 : i - pattern.length < n * pattern.length := by omega
        rw [repFlat, List.getElem?_append, if_neg (by omega), ih _ h1,
          Nat.mod_eq_sub_mod h]

/-- C1: for `N ≥ 1` beats, the 4-way section partition
(`section_size = N // 4`, final section extended to `N`) produces exactly 4
contiguous, non-overlapping ranges whose lengths sum to `N` and that exactly
tile `[0, N)` (ranges may be empty when `N < 4`). -/
theorem sectionRanges_tile (n : Nat) (hn : 1 ≤ n) :
    (sectionRanges n).length = 4 ∧
    ∃ e1 e2 e3,
      sectionRanges n = [(0, e1), (e1, e2), (e2, e3), (e3, n)] ∧
      e1 ≤ e2 ∧ e2 ≤ e3 ∧ e3 ≤ n ∧
      (e1 - 0) + (e2 - e1) + (e3 - e2) + (n - e3) = n ∧
      (∀ j, j < n ↔
        (j < e1) ∨ (e1 ≤ j ∧ j < e2) ∨ (e2 ≤ j ∧ j < e3) ∨ (e3 ≤ j ∧ j < n)) := by
  refine ⟨rfl, min (n / 4) n, min (min (n / 4) n + n / 4) n,
    min (min (min (n / 4) n + n / 4) n + n / 4) n, rfl, by omega, by omega, by omega,
    by omega, fun j => by omega⟩

/-- Witness for C1 at `N = 7`: partition `[0,1) [1,2) [2,3) [3,7)`. -/
theorem sectionRanges_tile_witness :
    1 ≤ 7 ∧ sectionRanges 7 = [(0, 1), (1, 2), (2, 3), (3, 7)] ∧
      ((sectionRanges 7).length = 4 ∧
        ∃ e1 e2 e3,
          sectionRanges 7 = [(0, e1), (e1, e2), (e2, e3), (e3, 7)] ∧
          e1 ≤ e2 ∧ e2 ≤ e3 ∧ e3 ≤ 7 ∧
          (e1 - 0) + (e2 - e1) + (e3 - e2) + (7 - e3) = 7 ∧
          (∀ j, j < 7 ↔
            (j < e1) ∨ (e1 ≤ j ∧ j < e2) ∨ (e2 ≤ j ∧ j < e3) ∨ (e3 ≤ j ∧ j < 7))) :=
  ⟨by decide, by decide, sectionRanges_tile 7 (by decide)⟩

/-- C4: for every non-empty pattern and every `count ≥ 0`, `build_sequence`
returns exactly `count` elements and is a prefix of the pattern repeated
indefinitely: element `i` equals `pattern[i % len(pattern)]`. -/
theorem build_sequence_spec {α : Type} (pattern : List α) (count : Nat)
    (hp : pattern ≠ []) :
    (build_sequence pattern count).length = count ∧
    ∀ i, i < count →
      (build_sequence pattern count)[i]? = pattern[i % pattern.length]? := by
  obtain ⟨m, hm⟩ := buildLoop_eq_append_repFlat pattern count [] count
  rw [List.nil_append] at hm
  have hlen : count ≤ (buildLoop pattern count [] count).length :=
    buildLoop_length pattern hp count [] count (by simp)
  rw [hm] at hlen
  rw [repFlat_length] at hlen
  constructor
  · rw [build_sequence, hm, List.length_take, repFlat_length]
    omega
  · intro i hi
    rw [build_sequence, hm, List.getElem?_take, if_pos hi,
      repFlat_getElem? pattern m i (by omega)]

/-- Witness for C4: `build_sequence(["a","b","c"], 7)` has 7 elements
cycling through the pattern, and concretely equals
`["a","b","c","a","b","c","a"]`. -/
theorem build_sequence_spec_witness :
    (["a", "b", "c"] : List String) ≠ [] ∧
    ((build_sequence ["a", "b", "c"] 7).length = 7 ∧
      ∀ i, i < 7 →
        (build_sequence ["a", "b", "c"] 7)[i]? =
          (["a", "b", "c"] : List String)[i % 3]?) ∧
    build_sequence ["a", "b", "c"] 7 = ["a", "b", "c", "a", "b", "c", "a"] :=
  ⟨by decide, by
      simpa using build_sequence_spec (["a", "b", "c"] : List String) 7 (by decide),
    by decide⟩

theorem runMove_foldl (ms s : ℚ) (steps : List DanceStep) :
    ∀ (acc : List (String × ℚ)) (bal : ℚ),
      steps.foldl
        (fun acc step =>
          (acc.1 ++ [(step.name, ms)],
           if step.turnRate ≠ 0 then acc.2 + step.turnRate * s else acc.2))
        (acc, bal)
      = (acc ++ steps.map (fun st => (st.name, ms)),
         bal + (steps.map (fun st => st.turnRate * s)).sum) := by
  induction steps with
  | nil => intro acc bal; simp
  | cons st rest ih =>
      intro acc bal
      simp only [List.foldl_cons, List.map_cons, List.sum_cons, ih]
      by_cases h : st.turnRate ≠ 0
      · simp only [if_pos h, List.cons_append, List.append_assoc]
        rw [Prod.mk.injEq]
        exact ⟨by simp, by ring⟩
      · simp only [if_neg h]
        push_neg at h
        rw [Prod.mk.injEq]
        refine ⟨by simp, ?_⟩
        rw [h]
        ring

/-- C2 counterexample: with `balance = 1e-7` and `balance_speed = 1 > 0`,
`balance_turn` is a no-op (the `|balance| <= 1e-6` guard returns early) and
the final balance is `1e-7 ≠ 0`, contradicting "balance_speed > 0 always
leaves balance == 0 afterwards". -/
theorem balance_turn_nonzero_after_correct :
    0 < (1 : ℚ) ∧
    balance_turn false (1 / 10000000) 1 = (none, 1 / 10000000) ∧
    (1 / 10000000 : ℚ) ≠ 0 := by
  refine ⟨by norm_num, ?_, by norm_num⟩
  norm_num [balance_turn, abs_of_pos]

/-- C2 amended: `balance_turn` is a no-op (no command, balance unchanged)
when `balance_speed ≤ 0` or `|balance| ≤ 1e-6`; otherwise it issues one turn
command of duration `|balance| / balance_speed` seconds in the direction
opposite the sign of the balance (left for positive balance) and resets the
balance to exactly `0`. -/
theorem balance_turn_spec (balance balanceSpeed : ℚ) :
    (balanceSpeed ≤ 0 ∨ |balance| ≤ 1 / 1000000 →
      balance_turn false balance balanceSpeed = (none, balance)) ∧
    (0 < balanceSpeed → 1 / 1000000 < |balance| →
      (balance_turn false balance balanceSpeed).2 = 0 ∧
      (balance_turn false balance balanceSpeed).1 =
        some (if 0 < balance then
                TurnCmd.left balanceSpeed (|balance| / balanceSpeed * 1000)
              else
                TurnCmd.right balanceSpeed (|balance| / balanceSpeed * 1000))) := by
  constructor
  · rintro (h | h)
    · rw [balance_turn, if_pos h]
    · by_cases hs : balanceSpeed ≤ 0
      · rw [balance_turn, if_pos hs]
      · rw [balance_turn, if_neg hs, if_pos h]
  · intro hs hb
    have h0 : 0 < |balance| := lt_trans (by norm_num) hb
    have h3 : ¬ |balance| / balanceSpeed ≤ 0 :=
      not_le.mpr (div_pos h0 hs)
    simp only [balance_turn, if_neg (not_le.mpr hs), if_neg (not_le.mpr hb),
      if_neg h3, Bool.false_eq_true, if_false]
    by_cases hpos : 0 < balance
    · simp [if_pos hpos]
    · simp [if_neg hpos]

/-- Witness for C2 amended, at the spec scenario `balance = 1.2`,
`balance_speed = 0.4`: a left turn of 3.0 s (3000 ms) and final balance 0. -/
theorem balance_turn_spec_witness :
    0 < (2 / 5 : ℚ) ∧ 1 / 1000000 < |(6 / 5 : ℚ)| ∧
    (balance_turn false (6 / 5) (2 / 5)).2 = 0 ∧
    (balance_turn false (6 / 5) (2 / 5)).1 = some (TurnCmd.left (2 / 5) 3000) := by
  have h := (balance_turn_spec (6 / 5) (2 / 5)).2 (by norm_num)
    (by rw [abs_of_pos (by norm_num)]; norm_num)
  refine ⟨by norm_num, by rw [abs_of_pos (by norm_num)]; norm_num, h.1, ?_⟩
  rw [h.2, if_pos (by norm_num), abs_of_pos (by norm_num)]
  norm_num

/-- C7: a move with `k ≥ 1` steps run for `duration_s > 0` issues every
step for exactly `duration_s / k` seconds (`duration_s * 1000 / k` ms), the
balance grows by the sum of `turn_rate * (duration_s / k)` over the steps,
and a move with zero steps is a no-op. -/
theorem runMove_spec (steps : List DanceStep) (d bal : ℚ) (hd : 0 < d) :
    (steps ≠ [] →
      (runMove steps d bal).1 =
        steps.map (fun st => (st.name, d * 1000 / (steps.length : ℚ))) ∧
      (runMove steps d bal).2 =
        bal + (steps.map (fun st => st.turnRate * (d / (steps.length : ℚ)))).sum) ∧
    runMove [] d bal = ([], bal) := by
  constructor
  · intro hne
    have hcond : ¬ (d ≤ 0 ∨ steps = []) := by
      push_neg
      exact ⟨hd, hne⟩
    have hsS : d * 1000 / (steps.length : ℚ) / 1000 = d / (steps.length : ℚ) := by
      rw [div_div, mul_comm (steps.length : ℚ) 1000, ← div_div,
        mul_div_assoc, div_self (by norm_num : (1000 : ℚ) ≠ 0), mul_one]
    have hrm := runMove_foldl (d * 1000 / (steps.length : ℚ))
      (d * 1000 / (steps.length : ℚ) / 1000) steps [] bal
    rw [hsS] at hrm
    constructor
    · simp only [runMove, if_neg hcond, hsS, hrm, List.nil_append]
    · simp only [runMove, if_neg hcond, hsS, hrm, List.nil_append]
  · simp [runMove]

/-- Witness for C7 at the spec scenario: a 3-step move of total 0.9 s runs
each step for exactly 300 ms, and a step of turn rate 1/2 adds
`1/2 · 0.3 = 3/20` to the balance. -/
theorem runMove_spec_witness :
    0 < (9 / 10 : ℚ) ∧
    (runMove [⟨"a", 0⟩, ⟨"b", 1 / 2⟩, ⟨"c", 0⟩] (9 / 10) 0).1 =
      [("a", 300), ("b", 300), ("c", 300)] ∧
    (runMove [⟨"a", 0⟩, ⟨"b", 1 / 2⟩, ⟨"c", 0⟩] (9 / 10) 0).2 = 3 / 20 := by
  have h := (runMove_spec [⟨"a", 0⟩, ⟨"b", 1 / 2⟩, ⟨"c", 0⟩] (9 / 10) 0
    (by norm_num)).1 (by decide)
  refine ⟨by norm_num, ?_, ?_⟩
  · rw [h.1]; norm_num
  · rw [h.2]; norm_num

theorem doubleLoop_ge (n : Nat) :
    ∀ bpm : ℚ, 0 < bpm → 80 ≤ bpm * 2 ^ n → 80 ≤ doubleLoop n bpm := by
  induction n with
  | zero => intro bpm _ h; simpa using h
  | succ m ih =>
      intro bpm hpos h
      rw [doubleLoop]
      by_cases hlt : bpm < 80
      · rw [if_pos hlt]
        apply ih (bpm * 2) (by linarith)
        calc (80 : ℚ) ≤ bpm * 2 ^ (m + 1) := h
          _ = bpm * 2 * 2 ^ m := by ring
      · rw [if_neg hlt]
        exact le_of_not_lt hlt

theorem doubleLoop_of_ge (n : Nat) (bpm : ℚ) (h : ¬ bpm < 80) :
    doubleLoop n bpm = bpm := by
  cases n with
  | zero => rfl
  | succ m => rw [doubleLoop, if_neg h]

theorem halveLoop_ge (n : Nat) :
    ∀ bpm : ℚ, 80 ≤ bpm → 80 ≤ halveLoop n bpm := by
  induction n with
  | zero => intro bpm h; simpa using h
  | succ m ih =>
      intro bpm h
      rw [halveLoop]
      by_cases hgt : 200 < bpm
      · rw [if_pos hgt]
        exact ih (bpm / 2) (by linarith)
      · rwa [if_neg hgt]

theorem halveLoop_le (n : Nat) :
    ∀ bpm : ℚ, bpm ≤ 200 * 2 ^ n → halveLoop n bpm ≤ 200 := by
  induction n with
  | zero => intro bpm h; simpa using h
  | succ m ih =>
      intro bpm h
      rw [halveLoop]
      by_cases hgt : 200 < bpm
      · rw [if_pos hgt]
        apply ih (bpm / 2)
        rw [div_le_iff₀ (by norm_num : (0:ℚ) < 2)]
        calc bpm ≤ 200 * 2 ^ (m + 1) := h
          _ = 200 * 2 ^ m * 2 := by ring
      · rw [if_neg hgt]
        exact le_of_not_lt hgt

theorem halveLoop_of_le (n : Nat) (bpm : ℚ) (h : ¬ 200 < bpm) :
    halveLoop n bpm = bpm := by
  cases n with
  | zero => rfl
  | succ m => rw [halveLoop, if_neg h]

theorem doubleFuel_sufficient (bpm : ℚ) (h : 0 < bpm) :
    (80 : ℚ) ≤ bpm * 2 ^ doubleFuel bpm := by
  have hden : 0 < (bpm.den : ℚ) := by positivity
  have hnum : (1 : ℚ) ≤ (bpm.num : ℚ) := by exact_mod_cast Rat.num_pos.mpr h
  have hbpm : (1 : ℚ) / (bpm.den : ℚ) ≤ bpm := by
    have h1 : (1 : ℚ) / (bpm.den : ℚ) ≤ (bpm.num : ℚ) / (bpm.den : ℚ) := by gcongr
    rwa [Rat.num_div_den] at h1
  have hpow : (80 : ℚ) * (bpm.den : ℚ) ≤ 2 ^ (80 * bpm.den) := by
    exact_mod_cast (Nat.lt_two_pow (80 * bpm.den)).le
  calc (80 : ℚ) = (1 / (bpm.den : ℚ)) * (80 * bpm.den) := by
        field_simp
    _ ≤ (1 / (bpm.den : ℚ)) * 2 ^ (80 * bpm.den) := by
        apply mul_le_mul_of_nonneg_left hpow (by positivity)
    _ ≤ bpm * 2 ^ (80 * bpm.den) := by
        apply mul_le_mul_of_nonneg_right hbpm (by positivity)
    _ = bpm * 2 ^ doubleFuel bpm := rfl

theorem halveFuel_sufficient (b : ℚ) : b ≤ 200 * 2 ^ halveFuel b := by
  by_cases hb : b ≤ 0
  · calc b ≤ 0 := hb
      _ ≤ 200 * 2 ^ halveFuel b := by positivity
  · push_neg at hb
    have hden : 0 < (b.den : ℚ) := by positivity
    have hd : 1 ≤ b.den := b.pos
    have hden1 : (1 : ℚ) ≤ (b.den : ℚ) := by exact_mod_cast hd
    have hnum : 0 < (b.num : ℚ) := by exact_mod_cast Rat.num_pos.mpr hb
    have hle : b ≤ (b.num : ℚ) := by
      conv_lhs => rw [← Rat.num_div_den b]
      rw [div_le_iff₀ hden]
      nlinarith
    have hpow : (b.num : ℚ) ≤ 2 ^ b.num.toNat := by
      have hnumZ : (0 : ℤ) ≤ b.num := by exact_mod_cast hnum.le
      have h1 : (b.num.toNat : ℚ) < 2 ^ b.num.toNat := by
        exact_mod_cast Nat.lt_two_pow b.num.toNat
      have h2 : (b.num : ℚ) = (b.num.toNat : ℚ) := by
        exact_mod_cast (Int.toNat_of_nonneg hnumZ).symm
      rw [h2]
      exact h1.le
    calc b ≤ (b.num : ℚ) := hle
      _ ≤ 2 ^ b.num.toNat := hpow
      _ ≤ 200 * 2 ^ b.num.toNat := by
          nlinarith [pow_pos (by norm_num : (0:ℚ) < 2) b.num.toNat]
      _ = 200 * 2 ^ halveFuel b := rfl

/-- C3 counterexample: at input `bpm = 0` (a value librosa's tempo estimate
can produce, cf. the `tempo <= 0` fallback in custom_example.py) the guard
of `while bpm < 80: bpm *= 2` stays true after every number of iterations:
the loop never exits, so the normalization returns no value at all, let
alone one in `[80, 200]`. -/
theorem normalize_diverges_at_zero : ¬ ∃ n : Nat, ¬ doubleLoop n (0 : ℚ) < 80 := by
  have hz : ∀ n : Nat, doubleLoop n (0 : ℚ) = 0 := by
    intro n
    induction n with
    | zero => rfl
    | succ m ih => rw [doubleLoop, if_pos (by norm_num), zero_mul, ih]
  rintro ⟨n, hn⟩
  rw [hz n] at hn
  exact hn (by norm_num)

/-- C3 amended: for every `bpm > 0` the octave-folding normalization
returns a value in `[80, 200]` and is idempotent
(`normalize (normalize bpm) = normalize bpm`); for `bpm ≤ 0` the source's
doubling loop never terminates. -/
theorem normalize_spec (bpm : ℚ) (h : 0 < bpm) :
    80 ≤ normalize bpm ∧ normalize bpm ≤ 200 ∧
      normalize (normalize bpm) = normalize bpm := by
  have hfix : ∀ x : ℚ, 80 ≤ x → x ≤ 200 → normalize x = x := by
    intro x h80 h200
    rw [normalize]
    rw [doubleLoop_of_ge _ _ (not_lt.mpr h80),
      halveLoop_of_le _ _ (not_lt.mpr h200)]
  have h80 : 80 ≤ doubleLoop (doubleFuel bpm) bpm :=
    doubleLoop_ge _ bpm h (doubleFuel_sufficient bpm h)
  have hlo : 80 ≤ normalize bpm := halveLoop_ge _ _ h80
  have hhi : normalize bpm ≤ 200 :=
    halveLoop_le _ _ (halveFuel_sufficient (doubleLoop (doubleFuel bpm) bpm))
  exact ⟨hlo, hhi, hfix _ hlo hhi⟩

/-- Witness for C3 amended at `bpm = 50`: `normalize 50 = 100 ∈ [80, 200]`
and a second application leaves it unchanged. -/
theorem normalize_spec_witness :
    0 < (50 : ℚ) ∧ normalize (50 : ℚ) = 100 ∧
      (80 ≤ normalize (50 : ℚ) ∧ normalize (50 : ℚ) ≤ 200 ∧
        normalize (normalize (50 : ℚ)) = normalize (50 : ℚ)) := by
  have hval : normalize (50 : ℚ) = 100 := by
    have hfuel : doubleFuel (50 : ℚ) = 80 := by
      rw [doubleFuel, Rat.den_ofNat]
    simp only [normalize, hfuel]
    rw [show (80 : Nat) = 79 + 1 from rfl, doubleLoop,
      if_pos (by norm_num : (50 : ℚ) < 80),
      show (50 : ℚ) * 2 = 100 by norm_num,
      doubleLoop_of_ge 79 100 (by norm_num),
      halveLoop_of_le _ 100 (by norm_num)]
  exact ⟨by norm_num, hval, normalize_spec 50 (by norm_num)⟩

/-- C6: `process_chunk` fires iff the onset-detected candidate or the
phase-predicted candidate is true for the chunk; the reported kind is
"detected" whenever the onset candidate is true (even if the prediction
also fired), and "predicted" only when the prediction fired alone. -/
theorem process_chunk_fire_iff (minInterval : ℚ) (s : DetectorState)
    (chunk : List ℚ) (now : ℚ) (onsetTimes : List ℚ) :
    ((process_chunk minInterval s chunk now onsetTimes).1.1 = true ↔
      (onsetCandidate minInterval s now onsetTimes = true ∨
        predictedCandidate s now = true)) ∧
    (onsetCandidate minInterval s now onsetTimes = true →
      (process_chunk minInterval s chunk now onsetTimes).1.2 = some "detected") ∧
    ((process_chunk minInterval s chunk now onsetTimes).1.2 = some "predicted" →
      predictedCandidate s now = true ∧
      onsetCandidate minInterval s now onsetTimes = false) := by
  cases ho : onsetCandidate minInterval s now onsetTimes <;>
    cases hp : predictedCandidate s now <;>
      simp [process_chunk, ho, hp]

/-- Witness for C6 at a concrete fire: from the initial state, a chunk at
`now = 10` with an onset at buffer time 5 (inside the trailing window) and
no pending prediction fires with kind "detected". -/
theorem process_chunk_fire_iff_witness :
    onsetCandidate 0 (initState []) 10 [5] = true ∧
    (process_chunk 0 (initState []) [] 10 [5]).1.1 = true ∧
    (process_chunk 0 (initState []) [] 10 [5]).1.2 = some "detected" := by
  have ho : onsetCandidate 0 (initState []) 10 [5] = true := by
    simp only [onsetCandidate, initState, BUFFER_DURATION, CHUNK_DURATION,
      List.filter, decide_eq_true_eq]
    norm_num
  have h := process_chunk_fire_iff 0 (initState []) [] 10 [5]
  exact ⟨ho, h.1.mpr (Or.inl ho), h.2.1 ho⟩

/-- C10: when `process_chunk` does not fire, the phase-tracking state —
`last_beat_time`, the beat-time history, `beat_period` and
`next_predicted_beat` — is exactly the same after the call; only the
rolling audio buffer advances (`np.roll` then overwrite of the tail). -/
theorem process_chunk_no_fire_frame (minInterval : ℚ) (s : DetectorState)
    (chunk : List ℚ) (now : ℚ) (onsetTimes : List ℚ)
    (h : (process_chunk minInterval s chunk now onsetTimes).1.1 = false) :
    (process_chunk minInterval s chunk now onsetTimes).2.lastBeatTime =
        s.lastBeatTime ∧
    (process_chunk minInterval s chunk now onsetTimes).2.beatTimes =
        s.beatTimes ∧
    (process_chunk minInterval s chunk now onsetTimes).2.beatPeriod =
        s.beatPeriod ∧
    (process_chunk minInterval s chunk now onsetTimes).2.nextPredictedBeat =
        s.nextPredictedBeat ∧
    (process_chunk minInterval s chunk now onsetTimes).2.audioBuffer =
        s.audioBuffer.drop chunk.length ++ chunk := by
  cases ho : onsetCandidate minInterval s now onsetTimes <;>
    cases hp : predictedCandidate s now <;>
      simp_all [process_chunk, ho, hp]

/-- Witness for C10: a silent chunk (no onsets, no pending prediction)
does not fire and leaves every phase-tracking field of the initial state
unchanged while the buffer rolls. -/
theorem process_chunk_no_fire_frame_witness :
    (process_chunk 0 (initState [1, 2, 3]) [4] 10 []).1.1 = false ∧
    ((process_chunk 0 (initState [1, 2, 3]) [4] 10 []).2.lastBeatTime =
        (initState [1, 2, 3]).lastBeatTime ∧
      (process_chunk 0 (initState [1, 2, 3]) [4] 10 []).2.beatTimes =
        (initState [1, 2, 3]).beatTimes ∧
      (process_chunk 0 (initState [1, 2, 3]) [4] 10 []).2.beatPeriod =
        (initState [1, 2, 3]).beatPeriod ∧
      (process_chunk 0 (initState [1, 2, 3]) [4] 10 []).2.nextPredictedBeat =
        (initState [1, 2, 3]).nextPredictedBeat ∧
      (process_chunk 0 (initState [1, 2, 3]) [4] 10 []).2.audioBuffer =
        (initState [1, 2, 3]).audioBuffer.drop [(4 : ℚ)].length ++ [4]) := by
  have hnf : (process_chunk 0 (initState [1, 2, 3]) [4] 10 []).1.1 = false := by
    simp [process_chunk, onsetCandidate, predictedCandidate, initState]
  exact ⟨hnf, process_chunk_no_fire_frame 0 (initState [1, 2, 3]) [4] 10 [] hnf⟩

/-- C5 amended: a firing whose *onset-detected* candidate is true occurs
strictly more than `minInterval` seconds after the last fired beat (and
every fire updates `last_beat_time` to `now`, so consecutive detected
firings are spaced by more than `minInterval`).  Phase-*predicted* firings
bypass the min-interval guard — see
`process_chunk_min_interval_counterexample`. -/
theorem process_chunk_onset_min_interval (minInterval : ℚ) (s : DetectorState)
    (chunk : List ℚ) (now : ℚ) (onsetTimes : List ℚ)
    (ho : onsetCandidate minInterval s now onsetTimes = true) :
    (process_chunk minInterval s chunk now onsetTimes).1.1 = true ∧
    (process_chunk minInterval s chunk now onsetTimes).2.lastBeatTime = now ∧
    minInterval < now - s.lastBeatTime := by
  have hmin : minInterval < now - s.lastBeatTime := by
    have h := ho
    simp only [onsetCandidate, Bool.and_eq_true, decide_eq_true_eq] at h
    exact h.2
  refine ⟨?_, ?_, hmin⟩ <;> simp [process_chunk, ho]

/-- Witness for C5 amended: the detected firing at `now = 9.95` from the
initial state (last beat time 0) satisfies the min-interval guard for
`minInterval = 1`. -/
theorem process_chunk_onset_min_interval_witness :
    onsetCandidate 1 (initState []) (199 / 20) [5] = true ∧
    ((process_chunk 1 (initState []) [] (199 / 20) [5]).1.1 = true ∧
      (process_chunk 1 (initState []) [] (199 / 20) [5]).2.lastBeatTime =
        199 / 20 ∧
      (1 : ℚ) < 199 / 20 - (initState []).lastBeatTime) := by
  have ho : onsetCandidate 1 (initState []) (199 / 20) [5] = true := by
    simp only [onsetCandidate, initState, BUFFER_DURATION, CHUNK_DURATION,
      List.filter, decide_eq_true_eq]
    norm_num
  exact ⟨ho, process_chunk_onset_min_interval 1 (initState []) [] (199 / 20) [5] ho⟩

/-- C5 counterexample: with `min_interval = 1` s, an onset-detected beat
fires at `t = 9.95` (predicting the next beat at `10.45`), and at
`t = 10.35` the *predicted* candidate fires — only `0.4 < 1` seconds after
the previous beat — because the prediction path of `process_chunk` never
consults the min-interval guard.  Two fired beats therefore occur closer
together than `min_interval`. -/
theorem process_chunk_min_interval_counterexample :
    (process_chunk 1 (initState []) [] (199 / 20) [5]).1.1 = true ∧
    (process_chunk 1
      ((process_chunk 1 (initState []) [] (199 / 20) [5]).2)
      [] (207 / 20) []).1.1 = true ∧
    (process_chunk 1 (initState []) [] (199 / 20) [5]).2.lastBeatTime =
      199 / 20 ∧
    (207 / 20 : ℚ) - 199 / 20 < 1 := by
  have ho : onsetCandidate 1 (initState []) (199 / 20) [5] = true := by
    simp only [onsetCandidate, initState, BUFFER_DURATION, CHUNK_DURATION,
      List.filter, decide_eq_true_eq]
    norm_num
  have hp : predictedCandidate (initState []) (199 / 20) = false := by
    simp [predictedCandidate, initState]
  have h1 : process_chunk 1 (initState []) [] (199 / 20) [5] =
      ((true, some "detected"),
       { audioBuffer := []
         lastBeatTime := 199 / 20
         beatTimes := [199 / 20]
         beatPeriod := 1 / 2
         nextPredictedBeat := some (209 / 20) }) := by
    simp only [process_chunk, ho, hp]
    norm_num [initState, START_BPM]
  have hp2 : predictedCandidate
      { audioBuffer := ([] : List ℚ)
        lastBeatTime := 199 / 20
        beatTimes := [199 / 20]
        beatPeriod := 1 / 2
        nextPredictedBeat := some (209 / 20) } (207 / 20) = true := by
    simp only [predictedCandidate, PREDICTION_TOLERANCE, decide_eq_true_eq]
    rw [show (209 / 20 : ℚ) - 207 / 20 = 1 / 10 by norm_num,
      abs_of_pos (by norm_num : (0 : ℚ) < 1 / 10)]
    norm_num
  refine ⟨by rw [h1], ?_, by rw [h1], by norm_num⟩
  rw [h1]
  simp only [process_chunk, hp2, Bool.or_true, if_true]

/-- C8 counterexample: the inverted range `start_beat = 3 > end_beat = 1`
on a 4-beat timeline is *not* rejected: `get_beat_time_range` happily
returns the (inverted) time pair `(beat_times[3], beat_times[0])` with no
error and no warning, contradicting "rejects outright every beat range
with inverted indices". -/
theorem get_beat_time_range_inverted_not_rejected :
    (1 : Int) < 3 ∧
    get_beat_time_range [0, 1 / 2, 1, 3 / 2] 3 1 =
      .ok ((3 / 2, 0), []) := by
  constructor
  · norm_num
  · simp only [get_beat_time_range, pyGet]
    norm_num [List.getD]
    rfl

/-- C8 amended: every range with a negative index is rejected outright,
but inverted ranges with non-negative indices are not; for non-negative
indices the call never fails: a start index at or past the timeline length
and an end index past the length are clamped so that the corresponding
time is the last valid beat's time, each clamp recording a non-fatal
anomaly (and no anomaly is recorded when both indices are in range). -/
theorem get_beat_time_range_spec (bt : List ℚ) (s e : Int) (hbt : bt ≠ []) :
    (s < 0 ∨ e < 0 →
      get_beat_time_range bt s e = .error "Beat indices cannot be negative") ∧
    (0 ≤ s → 0 ≤ e →
      ∃ times warns, get_beat_time_range bt s e = .ok (times, warns) ∧
        ((bt.length : Int) ≤ s →
          times.1 = bt.getD (bt.length - 1) 0 ∧ warns ≠ []) ∧
        ((bt.length : Int) < e →
          times.2 = bt.getD (bt.length - 1) 0 ∧ warns ≠ []) ∧
        (s < (bt.length : Int) → e ≤ (bt.length : Int) → warns = [])) := by
  have hlen : 0 < bt.length := List.length_pos.mpr hbt
  have hpy : pyGet bt ((bt.length : Int) - 1) = bt.getD (bt.length - 1) 0 := by
    rw [pyGet, if_pos (by omega)]
    congr 1
    omega
  constructor
  · intro h
    rw [get_beat_time_range, if_pos h]
  · intro hs he
    have hneg : ¬ (s < 0 ∨ e < 0) := by omega
    by_cases h1 : s ≥ (bt.length : Int) <;> by_cases h2 : e > (bt.length : Int) <;>
      simp only [get_beat_time_range, if_neg hneg, h1, h2, if_true, if_false,
        eq_self_iff_true, not_true, not_false_iff] <;>
      refine ⟨_, _, rfl, ?_, ?_, ?_⟩
    · intro _
      refine ⟨?_, by simp⟩
      rw [if_pos (by omega : (bt.length : Int) - 1 < (bt.length : Int)), hpy]
    · intro _
      refine ⟨?_, by simp⟩
      rw [if_pos (by omega : (bt.length : Int) - 1 < (bt.length : Int)), hpy]
    · intro _ _
      omega
    · intro _
      refine ⟨?_, by simp⟩
      rw [if_pos (by omega : (bt.length : Int) - 1 < (bt.length : Int)), hpy]
    · intro h
      exact h.elim
    · intro _ _
      omega
    · intro h
      exact h.elim
    · intro _
      refine ⟨?_, by simp⟩
      rw [if_pos (by omega : (bt.length : Int) - 1 < (bt.length : Int)), hpy]
    · intro _ h
      omega
    · intro h
      exact h.elim
    · intro h
      exact h.elim
    · intro _ _
      rfl

/-- Witness for C8 amended on the timeline `[0, 1/2, 1, 3/2]`: the range
`[2, 9)` exceeds the 4 available beats, is not rejected, and its end time
is clamped to the final beat time `3/2` with a recorded anomaly. -/
theorem get_beat_time_range_spec_witness :
    ([0, 1 / 2, 1, 3 / 2] : List ℚ) ≠ [] ∧
    (0 : Int) ≤ 2 ∧ (0 : Int) ≤ 9 ∧
    ∃ times warns,
      get_beat_time_range [0, 1 / 2, 1, 3 / 2] 2 9 = .ok (times, warns) ∧
      times.2 = (3 / 2 : ℚ) ∧ warns ≠ [] := by
  have h := ((get_beat_time_range_spec [0, 1 / 2, 1, 3 / 2] 2 9 (by simp)).2
    (by norm_num) (by norm_num))
  obtain ⟨times, warns, heq, _, hend, _⟩ := h
  refine ⟨by simp, by norm_num, by norm_num, times, warns, heq, ?_, (hend (by norm_num)).2⟩
  have := (hend (by norm_num)).1
  rw [this]
  norm_num [List.getD]

theorem dispatchLoop_getElem? (seq : List String) (stride : Nat) :
    ∀ (l : List Nat) (m k : Nat),
      (dispatchLoop seq stride l m)[k]? =
        ((l.filter (fun i => decide (i % stride = 0)))[k]?).map
          (fun i => (i, seq.getD ((m + k) % seq.length) "")) := by
  intro l
  induction l with
  | nil => intro m k; simp [dispatchLoop]
  | cons i rest ih =>
      intro m k
      by_cases h : i % stride = 0
      · rw [dispatchLoop, if_neg (not_not_intro h), List.filter_cons,
          if_pos (by simpa using h)]
        cases k with
        | zero => simp
        | succ k =>
            simp only [List.getElem?_cons_succ]
            have harith : m + (k + 1) = m + 1 + k := by omega
            rw [harith]
            exact ih (m + 1) k
      · rw [dispatchLoop, if_pos h, List.filter_cons,
          if_neg (by simpa using h)]
        exact ih m k

theorem filter_mod_range (stride : Nat) (hs : 0 < stride) :
    ∀ n, (List.range n).filter (fun i => decide (i % stride = 0)) =
      (List.range ((n + stride - 1) / stride)).map (· * stride) := by
  intro n
  induction n with
  | zero =>
      simp [Nat.div_eq_of_lt (show stride - 1 < stride by omega)]
  | succ n ih =>
      rw [List.range_succ, List.filter_append, ih]
      by_cases h : n % stride = 0
      · obtain ⟨q, hq⟩ := Nat.dvd_of_mod_eq_zero h
        have hdiv1 : (n + 1 + stride - 1) / stride = n / stride + 1 := by
          have e1 : n + 1 + stride - 1 = n + stride := by omega
          rw [e1, Nat.add_div_right n hs]
        have hdiv2 : (n + stride - 1) / stride = n / stride := by
          have e2 : n + stride - 1 = stride * q + (stride - 1) := by omega
          rw [e2, Nat.mul_add_div hs, Nat.div_eq_of_lt (by omega : stride - 1 < stride),
            hq, Nat.mul_div_cancel_left q hs]
          omega
        rw [hdiv1, hdiv2, List.range_succ, List.map_append]
        have hfil : List.filter (fun i => decide (i % stride = 0)) [n] = [n] := by
          simp [List.filter_cons, h]
        rw [hfil]
        have hlast : n / stride * stride = n := by
          rw [hq, Nat.mul_div_cancel_left q hs, Nat.mul_comm]
        simp [hlast]
      · have hdiv : (n + 1 + stride - 1) / stride = (n + stride - 1) / stride := by
          have hn : 0 < n % stride := Nat.pos_of_ne_zero h
          have hr : n % stride < stride := Nat.mod_lt n hs
          have hqr : stride * (n / stride) + n % stride = n := Nat.div_add_mod n stride
          have hd : stride * (n / stride + 1) = stride * (n / stride) + stride := by ring
          have e1 : n + 1 + stride - 1 = stride * (n / stride + 1) + n % stride := by omega
          have e2 : n + stride - 1 = stride * (n / stride + 1) + (n % stride - 1) := by omega
          rw [e1, e2, Nat.mul_add_div hs, Nat.mul_add_div hs,
            Nat.div_eq_of_lt hr, Nat.div_eq_of_lt (by omega : n % stride - 1 < stride)]
        have hfil : List.filter (fun i => decide (i % stride = 0)) [n] = [] := by
          simp [List.filter_cons, h]
        rw [hdiv, hfil, List.append_nil]

theorem lt_ceilDiv_iff_mul_lt (stride : Nat) (hs : 0 < stride) (n k : Nat) :
    k < (n + stride - 1) / stride ↔ k * stride < n := by
  rw [Nat.lt_iff_add_one_le, Nat.le_div_iff_mul_le hs]
  have hd : (k + 1) * stride = k * stride + stride := by ring
  omega

/-- C9: in the beat-driven dispatch loop, a move is dispatched exactly on
the beats whose index is a multiple of the `beats_per_move` stride, and the
`k`-th dispatched move is `sequence[k % len(sequence)]`: the `k`-th entry
of the schedule is the pair `(k·stride, sequence[k % len])`, present iff
`k·stride` is within the `n` available beats. -/
theorem dispatchSchedule_spec (n stride : Nat) (seq : List String)
    (hs : 0 < stride) (hseq : seq ≠ []) (k : Nat) :
    (dispatchSchedule n stride seq)[k]? =
      if k * stride < n then some (k * stride, seq.getD (k % seq.length) "")
      else none := by
  have _ := hseq
  rw [dispatchSchedule, dispatchLoop_getElem? seq stride (List.range n) 0 k,
    filter_mod_range stride hs n, List.getElem?_map]
  by_cases hk : k < (n + stride - 1) / stride
  · rw [List.getElem?_range hk, if_pos ((lt_ceilDiv_iff_mul_lt stride hs n k).mp hk)]
    simp
  · rw [List.getElem?_eq_none (by simpa using not_lt.mp hk),
      if_neg (fun hc => hk ((lt_ceilDiv_iff_mul_lt stride hs n k).mpr hc))]
    rfl

/-- Witness for C9: 7 beats, stride 2, cyclic sequence `["a","b","c"]` —
dispatches land on beats 0, 2, 4, 6 with moves a, b, c, a; the 4th dispatch
(`k = 3`) is `(6, "a")` as the theorem predicts. -/
theorem dispatchSchedule_spec_witness :
    0 < 2 ∧ (["a", "b", "c"] : List String) ≠ [] ∧
    (dispatchSchedule 7 2 ["a", "b", "c"])[3]? = some (6, "a") ∧
    dispatchSchedule 7 2 ["a", "b", "c"] =
      [(0, "a"), (2, "b"), (4, "c"), (6, "a")] := by
  have h := dispatchSchedule_spec 7 2 ["a", "b", "c"] (by decide) (by decide) 3
  refine ⟨by decide, by decide, ?_, by decide⟩
  simpa using h
